import Mathlib

/-!
Verification of `remove_dupes.py`, a duplicate-media-file remover.

The script is embedded shallowly:

* Python strings (paths, filenames, patterns) become `Str := List Char`.
* `glob.glob(os.path.join(base, pat))` (with a metacharacter-free `base`)
  is modelled per directory: the directory listing is an explicit
  `List DirEntry` (name + whether the entry is a directory) and the
  basename pattern is matched against each entry name with a model of
  `fnmatch` (translated faithfully from CPython's `fnmatch.translate`:
  `*`, `?`, `[...]` classes with `!` negation and ranges, an unmatched
  `[` is literal; posix, no case folding).  `glob` skips names starting
  with `.` unless the pattern starts with `.`, keeps listing order and
  matches directories as well as plain files.
* File contents are `List Nat` (byte lists); the streaming-SHA1
  `hash_file` is modelled as an abstract digest function applied to the
  whole content (chunked SHA1 of a file equals the digest of its full
  byte stream), with an `Except` error when the file cannot be opened.
* `os.remove` inside `remove_dupes` is an abstract stateful operation
  returning ok / FileNotFoundError / other OSError; `main` instantiates
  it on a filesystem tree.
-/

abbrev Str := List Char

/-- Python `s.split(sep)` for a single-character separator.  Always
returns a non-empty list; `"".split(sep) == [""]`. -/
def splitOnC (sep : Char) : Str → List Str
  | [] => [[]]
  | c :: rest =>
    if c = sep then [] :: splitOnC sep rest
    else
      match splitOnC sep rest with
      | [] => [[c]]
      | r :: rs => (c :: r) :: rs

/-- Python `p.split(os.path.sep)[-1]` (posix separator): the final path
segment. -/
def lastSeg (p : Str) : Str := (splitOnC '/' p).getLastD []

/-- Python `s.startswith(t)`-style test: `begins t s` iff `t` is an
initial segment of `s`. -/
def begins : Str → Str → Bool
  | [], _ => true
  | _ :: _, [] => false
  | a :: as, b :: bs => a == b && begins as bs

/-- Python `s.endswith(t)`: `t` is a final segment of `s`. -/
def endsW (t : Str) : Str → Bool
  | [] => t == []
  | c :: s => t == (c :: s) || endsW t s

/-- Python substring containment `t in s`. -/
def containsSub (t : Str) : Str → Bool
  | [] => begins t []
  | c :: s => begins t (c :: s) || containsSub t s

/-- Tokens of a translated `fnmatch` pattern, mirroring what
`fnmatch.translate` produces: literal characters, `*`, `?`, and
(possibly negated) character classes. -/
inductive GlobTok where
  | lit (c : Char)
  | any
  | one
  | cls (neg : Bool) (content : Str)
deriving DecidableEq

/-- Scan the body of a `[...]` class up to the closing `]`, returning
the accumulated content and the rest of the pattern; `none` when no
closing `]` exists. -/
def scanClass (acc : Str) : Str → Option (Str × Str)
  | [] => none
  | c :: rest =>
    if c = ']' then some (acc.reverse, rest)
    else scanClass (c :: acc) rest

/-- Parse a class body following `[`: an optional leading `!` negates,
a `]` immediately after `[` (or after `[!`) is literal content, then
everything up to the next `]` is the class; `none` when no closing `]`
exists (then the `[` itself is literal, as in `fnmatch.translate`). -/
def parseCls : Str → Option (Bool × Str × Str)
  | '!' :: ']' :: t =>
    match scanClass [']'] t with
    | none => none
    | some (cs, r) => some (true, cs, r)
  | '!' :: c :: t =>
    match scanClass [] (c :: t) with
    | none => none
    | some (cs, r) => some (true, cs, r)
  | ']' :: t =>
    match scanClass [']'] t with
    | none => none
    | some (cs, r) => some (false, cs, r)
  | ps =>
    match scanClass [] ps with
    | none => none
    | some (cs, r) => some (false, cs, r)

/-- `fnmatch.translate` (fuelled so that the recursion is structural;
the remainder after a class is shorter than the pattern, so `length`
fuel always suffices), producing tokens instead of a regex: `*` and
`?` are wildcards, `[...]` is a class (an unmatched `[` is a literal
`[`), every other character is literal. -/
def globTranslateF : Nat → Str → List GlobTok
  | _, [] => []
  | 0, _ :: _ => []
  | fuel + 1, c :: ps =>
    if c = '*' then GlobTok.any :: globTranslateF fuel ps
    else if c = '?' then GlobTok.one :: globTranslateF fuel ps
    else if c = '[' then
      match parseCls ps with
      | none => GlobTok.lit '[' :: globTranslateF fuel ps
      | some (neg, cs, r) => GlobTok.cls neg cs :: globTranslateF fuel r
    else GlobTok.lit c :: globTranslateF fuel ps

/-- `fnmatch.translate` at adequate fuel. -/
def globTranslate (pat : Str) : List GlobTok := globTranslateF pat.length pat

/-- Membership of a character in a class body, with `a-b` ranges
(`-` first or last is literal, an empty range matches nothing). -/
def classMatch (c : Char) : Str → Bool
  | a :: '-' :: b :: rest =>
    (decide (a ≤ c) && decide (c ≤ b)) || classMatch c rest
  | a :: rest => a == c || classMatch c rest
  | [] => false

/-- Try `next` on the string and on each of its suffixes: the
semantics of a `*` token followed by the pattern `next` decides. -/
def tokMatchAux (next : Str → Bool) : Str → Bool
  | [] => next []
  | c :: s => next (c :: s) || tokMatchAux next s

/-- Match a translated pattern against a string (regex matching of the
`fnmatch.translate` output, specialised to these tokens). -/
def tokMatch : List GlobTok → Str → Bool
  | [], [] => true
  | [], _ :: _ => false
  | GlobTok.any :: ts, s => tokMatchAux (tokMatch ts) s
  | GlobTok.one :: ts, _ :: s => tokMatch ts s
  | GlobTok.one :: _, [] => false
  | GlobTok.cls neg cs :: ts, c :: s => (classMatch c cs != neg) && tokMatch ts s
  | GlobTok.cls _ _ :: _, [] => false
  | GlobTok.lit a :: ts, c :: s => a == c && tokMatch ts s
  | GlobTok.lit _ :: _, [] => false

/-- Python `fnmatch.fnmatch(name, pat)` on posix (no case folding). -/
def fnmatchL (pat name : Str) : Bool := tokMatch (globTranslate pat) name

/-- One entry of a directory listing, as `os.listdir`/`os.scandir`
present it: a name (no separators) and whether it is a subdirectory. -/
structure DirEntry where
  name : Str
  isDir : Bool
deriving DecidableEq

/-- A name the glob module treats as hidden (leading dot). -/
def isHidden : Str → Bool
  | c :: _ => c == '.'
  | [] => false

/-- `os.path.join(base, name)` for a relative `name` and a `base`
without a trailing separator (posix). -/
def pathJoin (base name : Str) : Str := base ++ '/' :: name

/-- `glob.glob(os.path.join(base_path, pat))` for a magic-free
`base_path` and a single-component pattern `pat` containing a magic
character: every listing entry (file or directory) whose name matches
`pat`, skipping dot-files unless `pat` starts with a dot, joined back
onto `base_path`, in listing order. -/
def glob_glob (base_path : Str) (listing : List DirEntry) (pat : Str) : List Str :=
  (listing.filter
      (fun e => (isHidden pat || !isHidden e.name) && fnmatchL pat e.name)).map
    (fun e => pathJoin base_path e.name)

/-- The default `filetypes` list of `get_all_files`. -/
def defaultFiletypes : List Str :=
  [['j', 'p', 'e', 'g'], ['J', 'P', 'G'], ['j', 'p', 'g'],
   ['g', 'i', 'f'], ['G', 'I', 'F'], ['p', 'n', 'g'], ['P', 'N', 'G'],
   ['m', 'o', 'v'], ['M', 'O', 'V'], ['m', 'p', '4']]

/-- `get_all_files`: for each filetype accumulate
`glob.glob(os.path.join(base_path, "*." + ftype))`. -/
def get_all_files (base_path : Str) (listing : List DirEntry)
    (filetypes : List Str) : List Str :=
  filetypes.foldl
    (fun all_images ftype =>
      all_images ++ glob_glob base_path listing ('*' :: '.' :: ftype)) []

/-- `get_originals`: the files whose final path segment does not
contain the indicator. -/
def get_originals (all_images : List Str) (indicator : Str) : List Str :=
  all_images.filter (fun p => !containsSub indicator (lastSeg p))

/-- `pic_path.split(os.path.sep)[-1].split('.')[0]` — the base name of
an original (final segment up to the first dot). -/
def picNameOf (pic_path : Str) : Str :=
  (splitOnC '.' (lastSeg pic_path)).headD []

/-- `pic_path[pic_path.rfind('.')+1:]` — the text after the last dot of
the whole path (the whole path when it has no dot). -/
def filetypeOf (pic_path : Str) : Str :=
  (splitOnC '.' pic_path).getLastD []

/-- The filename-matched candidates of one original (line 96 of the
script): glob `pic_name*` in the same directory, keep entries whose
final path segment contains the indicator and whose full path ends with
the original's filetype string. -/
def matchedCandidates (base_path : Str) (listing : List DirEntry)
    (pic_path : Str) (indicator : Str) : List Str :=
  (glob_glob base_path listing (picNameOf pic_path ++ ['*'])).filter
    (fun p => containsSub indicator (lastSeg p) && endsW (filetypeOf pic_path) p)

/-- Modelled from the spec side of claim C1 (its literal reading, for
comparison with `matchedCandidates`): the entries of the same directory
whose final path segment (their name) begins with the Original's base
name, contains the marker, and ends with the Original's extension
string. -/
def specCandidates (base_path : Str) (listing : List DirEntry)
    (pic_path : Str) (indicator : Str) : List Str :=
  (listing.filter (fun e =>
      begins (picNameOf pic_path) e.name &&
      (containsSub indicator e.name && endsW (filetypeOf pic_path) e.name))).map
    (fun e => pathJoin base_path e.name)

/-- `hash_file`: open the file and stream it through SHA-1.  The digest
of the streamed chunks equals the digest of the full content, so the
model applies an abstract digest function `hash` to the whole byte
list; a file that cannot be opened (`readFile` yields `none`) raises,
modelled as `Except.error`. -/
def hash_file (hash : List Nat → Nat) (readFile : Str → Option (List Nat))
    (filename : Str) : Except Str Nat :=
  match readFile filename with
  | none => Except.error filename
  | some content => Except.ok (hash content)

/-- Line 100 of the script: keep the candidates whose digest equals the
original's digest, hashing them left to right; the first unreadable
candidate raises. -/
def verifyFilter (hash : List Nat → Nat) (readFile : Str → Option (List Nat))
    (original_hash : Nat) : List Str → Except Str (List Str)
  | [] => Except.ok []
  | d :: ds => do
    let dh ← hash_file hash readFile d
    let rest ← verifyFilter hash readFile original_hash ds
    pure (if dh = original_hash then d :: rest else rest)

/-- The loop body of `get_dupes` for one original (lines 92–100):
filename-matched candidates, optionally filtered by digest equality
with the original. -/
def dupeSetFor (hash : List Nat → Nat) (readFile : Str → Option (List Nat))
    (base_path : Str) (listing : List DirEntry) (pic_path : Str)
    (indicator : Str) (verify_hashes : Bool) : Except Str (List Str) :=
  let cur_dupes := matchedCandidates base_path listing pic_path indicator
  if verify_hashes then do
    let original_hash ← hash_file hash readFile pic_path
    verifyFilter hash readFile original_hash cur_dupes
  else Except.ok cur_dupes

/-- `get_dupes`: the per-original duplicate sets in originals order,
appending only non-empty sets; any hashing error aborts the whole
resolution. -/
def get_dupes (hash : List Nat → Nat) (readFile : Str → Option (List Nat))
    (base_path : Str) (listing : List DirEntry) (originals : List Str)
    (indicator : Str) (verify_hashes : Bool) : Except Str (List (List Str)) :=
  match originals with
  | [] => Except.ok []
  | pic_path :: rest => do
    let cur_dupes ← dupeSetFor hash readFile base_path listing pic_path
      indicator verify_hashes
    let dupes ← get_dupes hash readFile base_path listing rest
      indicator verify_hashes
    pure (if cur_dupes.length ≠ 0 then cur_dupes :: dupes else dupes)

/-- Result of one `os.remove` call: success, `FileNotFoundError`, or
any other `OSError` (permission denied, is-a-directory, …). -/
inductive RemoveOutcome where
  | ok
  | notFound
  | otherError (msg : Str)

/-- One line of console output of the script. -/
inductive ReportLine where
  | checking (p : Str)
  | noDupesFound
  | removingHeader
  | fileLine (p : Str)
  | missingWarn (p : Str)
deriving DecidableEq

/-- Outcome of a remover run over a state `σ` modelling the filesystem
seen by `os.remove`: the printed report, the paths `os.remove` was
called on, the uncaught exception if one was raised, and the final
state. -/
structure RunResult (σ : Type) where
  report : List ReportLine
  attempted : List Str
  fatal : Option Str
  state : σ
deriving DecidableEq

/-- The inner loop of `remove_dupes` over one duplicate set: print each
file, and when `do_del` delete it, catching only `FileNotFoundError`
(which prints a warning and continues); any other error propagates,
ending the run. -/
def removeFiles {σ : Type} (osRemove : σ → Str → RemoveOutcome × σ)
    (do_del : Bool) (s : σ) : List Str → RunResult σ
  | [] => ⟨[], [], none, s⟩
  | p :: ps =>
    if do_del then
      match osRemove s p with
      | (RemoveOutcome.ok, s') =>
        let r := removeFiles osRemove do_del s' ps
        ⟨ReportLine.fileLine p :: r.report, p :: r.attempted, r.fatal, r.state⟩
      | (RemoveOutcome.notFound, s') =>
        let r := removeFiles osRemove do_del s' ps
        ⟨ReportLine.fileLine p :: ReportLine.missingWarn p :: r.report,
         p :: r.attempted, r.fatal, r.state⟩
      | (RemoveOutcome.otherError e, s') =>
        ⟨[ReportLine.fileLine p], [p], some e, s'⟩
    else
      let r := removeFiles osRemove do_del s ps
      ⟨ReportLine.fileLine p :: r.report, r.attempted, r.fatal, r.state⟩

/-- `remove_dupes`: print a header per duplicate set and process its
files; an uncaught exception aborts the remaining sets as well. -/
def remove_dupes {σ : Type} (osRemove : σ → Str → RemoveOutcome × σ)
    (do_del : Bool) (s : σ) : List (List Str) → RunResult σ
  | [] => ⟨[], [], none, s⟩
  | cur_dupeset :: rest =>
    let r1 := removeFiles osRemove do_del s cur_dupeset
    match r1.fatal with
    | some e =>
      ⟨ReportLine.removingHeader :: r1.report, r1.attempted, some e, r1.state⟩
    | none =>
      let r2 := remove_dupes osRemove do_del r1.state rest
      ⟨ReportLine.removingHeader :: r1.report ++ r2.report,
       r1.attempted ++ r2.attempted, r2.fatal, r2.state⟩

mutual
/-- A directory tree: the ordered listing of one directory. -/
inductive FSTree where
  | node : List FSEntry → FSTree
/-- A directory entry: a plain file with its byte content, or a
subdirectory with its own tree. -/
inductive FSEntry where
  | file : Str → List Nat → FSEntry
  | dir : Str → FSTree → FSEntry
end

/-- The listing `glob` sees for a directory. -/
def listingOf (entries : List FSEntry) : List DirEntry :=
  entries.map (fun e =>
    match e with
    | FSEntry.file n _ => ⟨n, false⟩
    | FSEntry.dir n _ => ⟨n, true⟩)

/-- `open(p, 'rb')` resolved against one directory: the content of the
plain file of that directory whose joined path is `p`; `none` (raises)
for directories and absent paths. -/
def readInDir (base : Str) : List FSEntry → Str → Option (List Nat)
  | [], _ => none
  | FSEntry.file n c :: rest, p =>
    if pathJoin base n = p then some c else readInDir base rest p
  | FSEntry.dir _ _ :: rest, p => readInDir base rest p

/-- `os.remove p` against one directory: deletes the matching plain
file (success), raises `IsADirectoryError` on a matching subdirectory,
`FileNotFoundError` otherwise. -/
def osRemoveDir (base : Str) : List FSEntry → Str → RemoveOutcome × List FSEntry
  | [], _ => (RemoveOutcome.notFound, [])
  | FSEntry.file n c :: rest, p =>
    if pathJoin base n = p then (RemoveOutcome.ok, rest)
    else
      let r := osRemoveDir base rest p
      (r.1, FSEntry.file n c :: r.2)
  | FSEntry.dir n t :: rest, p =>
    if pathJoin base n = p then
      (RemoveOutcome.otherError p, FSEntry.dir n t :: rest)
    else
      let r := osRemoveDir base rest p
      (r.1, FSEntry.dir n t :: r.2)

/-- Result of a `main` run: console report, paths `os.remove` was
called on, the uncaught exception if any, and the filesystem tree after
the run. -/
structure MainResult where
  report : List ReportLine
  attempted : List Str
  fatal : Option Str
  tree : FSTree

/-- Result of recursing over the subdirectories of one directory. -/
structure DirsResult where
  report : List ReportLine
  attempted : List Str
  fatal : Option Str
  trees : List FSTree

/-- Reattach recursed subdirectory trees (in order) to a listing;
entries beyond the processed ones (after a fatal error) keep their old
trees. -/
def replaceDirs : List FSEntry → List FSTree → List FSEntry
  | [], _ => []
  | FSEntry.file n c :: rest, ts => FSEntry.file n c :: replaceDirs rest ts
  | FSEntry.dir n t :: rest, [] => FSEntry.dir n t :: replaceDirs rest []
  | FSEntry.dir n _ :: rest, t' :: ts => FSEntry.dir n t' :: replaceDirs rest ts

/-- The indicator `main` uses (the defaults of `get_originals` and
`get_dupes`): a single space. -/
def defaultIndicator : Str := [' ']

mutual
/-- `main`: process one directory (discover, classify, resolve, report,
remove) and, when `recursive`, recurse into each subdirectory; any
uncaught exception (hashing, non-missing deletion failure) aborts
everything after it. -/
def mainRun (hash : List Nat → Nat) (recursive verify_hash do_del : Bool)
    (base_path : Str) : FSTree → MainResult
  | FSTree.node entries =>
    let listing := listingOf entries
    let root_images := get_all_files base_path listing defaultFiletypes
    let originals := get_originals root_images defaultIndicator
    match get_dupes hash (readInDir base_path entries) base_path listing
        originals defaultIndicator verify_hash with
    | Except.error e =>
      ⟨[ReportLine.checking base_path], [], some e, FSTree.node entries⟩
    | Except.ok dupes =>
      let rep0 :=
        if dupes.length = 0 then
          [ReportLine.checking base_path, ReportLine.noDupesFound]
        else [ReportLine.checking base_path]
      let r := remove_dupes (osRemoveDir base_path) do_del entries dupes
      match r.fatal with
      | some e => ⟨rep0 ++ r.report, r.attempted, some e, FSTree.node r.state⟩
      | none =>
        if recursive then
          -- Python re-lists the directory after removal; removal only
          -- ever deletes plain files (a directory hit raises, handled
          -- above), so the subdirectories of `r.state` are exactly
          -- those of `entries` and recursing over `entries` is the
          -- same traversal (and structurally decreasing).
          let sub := mainRunDirs hash recursive verify_hash do_del base_path
            entries
          ⟨rep0 ++ r.report ++ sub.report, r.attempted ++ sub.attempted,
           sub.fatal, FSTree.node (replaceDirs r.state sub.trees)⟩
        else ⟨rep0 ++ r.report, r.attempted, none, FSTree.node r.state⟩

/-- Recurse into the subdirectories of a directory listing, in listing
order, stopping at the first fatal error. -/
def mainRunDirs (hash : List Nat → Nat) (recursive verify_hash do_del : Bool)
    (base_path : Str) : List FSEntry → DirsResult
  | [] => ⟨[], [], none, []⟩
  | FSEntry.file _ _ :: rest =>
    mainRunDirs hash recursive verify_hash do_del base_path rest
  | FSEntry.dir n t :: rest =>
    let r := mainRun hash recursive verify_hash do_del (pathJoin base_path n) t
    match r.fatal with
    | some e => ⟨r.report, r.attempted, some e, [r.tree]⟩
    | none =>
      let rs := mainRunDirs hash recursive verify_hash do_del base_path rest
      ⟨r.report ++ rs.report, r.attempted ++ rs.attempted, rs.fatal,
       r.tree :: rs.trees⟩
end

/-! Concrete directories, files and helper functions used by the
counterexamples and witnesses below. -/

/-- The directory path `d`. -/
def exBase : Str := ['d']

/-- A digest function for runs where hashing is irrelevant. -/
def hashZero : List Nat → Nat := fun _ => 0

/-- A digest function whose digests coincide exactly on byte lists of
equal sum. -/
def hashSum : List Nat → Nat := List.sum

/-- The filename `a[b] (1).jpg`, a saved duplicate of `a[b].jpg`. -/
def exBracketDupName : Str :=
  ['a', '[', 'b', ']', ' ', '(', '1', ')', '.', 'j', 'p', 'g']

/-- A directory holding only the file `a[b] (1).jpg`. -/
def exBracketListing : List DirEntry := [⟨exBracketDupName, false⟩]

/-- The original path `d/a[b].jpg`. -/
def exBracketPic : Str := ['d', '/', 'a', '[', 'b', ']', '.', 'j', 'p', 'g']

/-- The original path `d/c.g`. -/
def exPicW : Str := ['d', '/', 'c', '.', 'g']

/-- The filename `c 1.g`. -/
def exCandName : Str := ['c', ' ', '1', '.', 'g']

/-- The path `d/c 1.g`. -/
def exCandW : Str := ['d', '/', 'c', ' ', '1', '.', 'g']

/-- A directory holding the files `c 1.g` and `x.g`. -/
def exListingW : List DirEntry := [⟨exCandName, false⟩, ⟨['x', '.', 'g'], false⟩]

/-- Contents of `d/c.g` and `d/c 1.g`: different bytes with equal
`hashSum` digests. -/
def exReadW : Str → Option (List Nat) := fun p =>
  if p = exPicW then some [1, 2] else if p = exCandW then some [2, 1] else none

/-- Contents where only the original `d/c.g` is readable. -/
def exReadBad : Str → Option (List Nat) := fun p =>
  if p = exPicW then some [1, 2] else none

/-- The subdirectory name `sub.jpg`. -/
def exSubdirName : Str := ['s', 'u', 'b', '.', 'j', 'p', 'g']

/-- A directory whose only entry is a subdirectory named `sub.jpg`. -/
def exSubdirListing : List DirEntry := [⟨exSubdirName, true⟩]

/-- A directory with files `photo.jpg`, `photo2.jpg`, `photo2 (1).jpg`. -/
def exPhotoEntries : List FSEntry :=
  [FSEntry.file ['p', 'h', 'o', 't', 'o', '.', 'j', 'p', 'g'] [1],
   FSEntry.file ['p', 'h', 'o', 't', 'o', '2', '.', 'j', 'p', 'g'] [2],
   FSEntry.file ['p', 'h', 'o', 't', 'o', '2', ' ', '(', '1', ')', '.', 'j', 'p', 'g'] [3]]

/-- The path `d/photo2 (1).jpg`. -/
def exP3 : Str :=
  ['d', '/', 'p', 'h', 'o', 't', 'o', '2', ' ', '(', '1', ')', '.', 'j', 'p', 'g']

/-- An `os.remove` model over state `Nat`: in state `0` the file is
missing (`FileNotFoundError`), in any other state removal fails with a
non-missing `OSError`. -/
def exOsRemove : Nat → Str → RemoveOutcome × Nat := fun s p =>
  if s = 0 then (RemoveOutcome.notFound, 1) else (RemoveOutcome.otherError p, s)

/-- An `os.remove` model that always succeeds. -/
def exOsRemoveOk : Nat → Str → RemoveOutcome × Nat := fun s _ => (RemoveOutcome.ok, s)

/-- The path `x`. -/
def exPath : Str := ['x']


theorem splitOnC_ne_nil (sep : Char) (s : Str) : splitOnC sep s ≠ [] := by
  induction s with
  | nil => simp [splitOnC]
  | cons c rest ih =>
    simp only [splitOnC]
    split
    · simp
    · cases h : splitOnC sep rest with
      | nil => simp
      | cons r rs => simp

theorem splitOnC_of_not_mem {sep : Char} {s : Str} (h : sep ∉ s) :
    splitOnC sep s = [s] := by
  induction s with
  | nil => rfl
  | cons c rest ih =>
    simp only [List.mem_cons, not_or] at h
    simp only [splitOnC, if_neg (Ne.symm h.1), ih h.2]

theorem splitOnC_append_two (sep : Char) (a b : Str) :
    2 ≤ (splitOnC sep (a ++ sep :: b)).length := by
  induction a with
  | nil =>
    simp only [List.nil_append, splitOnC, if_pos rfl, List.length_cons]
    have := splitOnC_ne_nil sep b
    cases h : splitOnC sep b with
    | nil => exact absurd h this
    | cons r rs => simp
  | cons c a' ih =>
    simp only [List.cons_append, splitOnC]
    split
    · have := splitOnC_ne_nil sep (a' ++ sep :: b)
      cases h : splitOnC sep (a' ++ sep :: b) with
      | nil => exact absurd h this
      | cons r rs => simp
    · cases h : splitOnC sep (a' ++ sep :: b) with
      | nil => exact absurd h (splitOnC_ne_nil sep _)
      | cons r rs =>
        rw [h] at ih
        simp only [List.length_cons] at ih ⊢
        omega

theorem getLastD_splitOnC_append {sep : Char} (a b : Str) :
    (splitOnC sep (a ++ sep :: b)).getLastD [] = (splitOnC sep b).getLastD [] := by
  induction a with
  | nil =>
    simp only [List.nil_append, splitOnC, if_pos rfl]
    cases h : splitOnC sep b with
    | nil => exact absurd h (splitOnC_ne_nil sep b)
    | cons r rs => simp
  | cons c a' ih =>
    simp only [List.cons_append, splitOnC]
    split
    · cases h : splitOnC sep (a' ++ sep :: b) with
      | nil => exact absurd h (splitOnC_ne_nil sep _)
      | cons r rs => rw [h] at ih; simpa using ih
    · cases h : splitOnC sep (a' ++ sep :: b) with
      | nil => exact absurd h (splitOnC_ne_nil sep _)
      | cons r rs =>
        rw [h] at ih
        have h2 := splitOnC_append_two sep a' b
        rw [h] at h2
        cases rs with
        | nil => simp at h2
        | cons r' rs' => simpa using ih

theorem lastSeg_pathJoin {name : Str} (base : Str) (h : '/' ∉ name) :
    lastSeg (pathJoin base name) = name := by
  unfold lastSeg pathJoin
  rw [getLastD_splitOnC_append, splitOnC_of_not_mem h]
  rfl

theorem beq_false_of_mem_not_mem {t l : Str} {x : Char} (hx : x ∈ l) (ht : x ∉ t) :
    (t == l) = false := by
  cases h : t == l with
  | true => exact absurd (by rw [beq_iff_eq] at h; rw [h]; exact hx) ht
  | false => rfl

theorem endsW_pathJoin {t name : Str} (base : Str) (h : '/' ∉ t) :
    endsW t (pathJoin base name) = endsW t name := by
  unfold pathJoin
  induction base with
  | nil =>
    show endsW t ('/' :: name) = endsW t name
    simp only [endsW]
    rw [beq_false_of_mem_not_mem (List.mem_cons_self _ _) h]
    simp
  | cons c b' ih =>
    show endsW t (c :: (b' ++ '/' :: name)) = endsW t name
    simp only [endsW]
    rw [@beq_false_of_mem_not_mem t (c :: (b' ++ '/' :: name)) '/'
      (by simp) h]
    simpa using ih

theorem headD_splitOnC_not_mem (sep : Char) (s : Str) :
    sep ∉ (splitOnC sep s).headD [] := by
  induction s with
  | nil => simp [splitOnC]
  | cons c rest ih =>
    simp only [splitOnC]
    split
    · simp
    · cases h : splitOnC sep rest with
      | nil => exact absurd h (splitOnC_ne_nil sep rest)
      | cons r rs =>
        rw [h] at ih
        simp only [List.headD_cons] at ih ⊢
        simp only [List.mem_cons, not_or]
        exact ⟨fun hc => (by simp_all), ih⟩

theorem filter_map_filter {α β : Type} (l : List α) (g : α → Bool)
    (f : α → β) (q : β → Bool) :
    ((l.filter g).map f).filter q = (l.filter (fun e => g e && q (f e))).map f := by
  induction l with
  | nil => rfl
  | cons e rest ih =>
    cases hg : g e with
    | false => simp [List.filter_cons, hg, ih]
    | true =>
      cases hq : q (f e) with
      | false => simp [List.filter_cons, hg, hq, ih]
      | true => simp [List.filter_cons, hg, hq, ih]

theorem globTranslate_nil : globTranslate [] = [] := rfl

theorem globTranslate_star (ps : Str) :
    globTranslate ('*' :: ps) = GlobTok.any :: globTranslate ps := rfl

theorem globTranslate_cons_lit {c : Char} (ps : Str) (h1 : c ≠ '*') (h2 : c ≠ '?')
    (h3 : c ≠ '[') : globTranslate (c :: ps) = GlobTok.lit c :: globTranslate ps := by
  show globTranslateF (ps.length + 1) (c :: ps) = _
  simp only [globTranslateF, if_neg h1, if_neg h2, if_neg h3]
  rfl

theorem globTranslate_lits {cs : Str} (ps : Str)
    (h : ∀ c ∈ cs, c ≠ '*' ∧ c ≠ '?' ∧ c ≠ '[') :
    globTranslate (cs ++ ps) = cs.map GlobTok.lit ++ globTranslate ps := by
  induction cs with
  | nil => simp
  | cons c cs' ih =>
    have hc := h c (by simp)
    rw [List.cons_append, globTranslate_cons_lit _ hc.1 hc.2.1 hc.2.2,
      ih (fun d hd => h d (by simp [hd]))]
    simp

theorem tokMatch_lits (cs s : Str) : tokMatch (cs.map GlobTok.lit) s = (cs == s) := by
  induction cs generalizing s with
  | nil => cases s <;> simp [tokMatch]
  | cons a cs' ih =>
    cases s with
    | nil => simp [tokMatch]
    | cons c s' =>
      simp only [List.map_cons, tokMatch, ih]
      rfl

theorem tokMatch_any (s : Str) : tokMatch [GlobTok.any] s = true := by
  show tokMatchAux (tokMatch []) s = true
  induction s with
  | nil => rfl
  | cons c s' ih => simp [tokMatchAux, ih]

theorem tokMatch_lits_any (cs s : Str) :
    tokMatch (cs.map GlobTok.lit ++ [GlobTok.any]) s = begins cs s := by
  induction cs generalizing s with
  | nil => simpa [begins] using tokMatch_any s
  | cons a cs' ih =>
    cases s with
    | nil => simp [tokMatch, begins]
    | cons c s' => simp [tokMatch, begins, ih]

theorem tokMatch_any_lits (cs s : Str) :
    tokMatch (GlobTok.any :: cs.map GlobTok.lit) s = endsW cs s := by
  show tokMatchAux (tokMatch (cs.map GlobTok.lit)) s = endsW cs s
  induction s with
  | nil => simp [tokMatchAux, tokMatch_lits, endsW]
  | cons c s' ih => simp [tokMatchAux, tokMatch_lits, endsW, ih]

theorem fnmatchL_lits_star {cs : Str}
    (h : ∀ c ∈ cs, c ≠ '*' ∧ c ≠ '?' ∧ c ≠ '[') (s : Str) :
    fnmatchL (cs ++ ['*']) s = begins cs s := by
  unfold fnmatchL
  rw [globTranslate_lits _ h, globTranslate_star, globTranslate_nil,
    tokMatch_lits_any]

theorem fnmatchL_star_lits {cs : Str}
    (h : ∀ c ∈ cs, c ≠ '*' ∧ c ≠ '?' ∧ c ≠ '[') (s : Str) :
    fnmatchL ('*' :: cs) s = endsW cs s := by
  unfold fnmatchL
  rw [globTranslate_star,
    show globTranslate cs = cs.map GlobTok.lit by
      simpa [globTranslate_nil] using @globTranslate_lits cs [] h,
    tokMatch_any_lits]

theorem isHidden_false_of_begins {pn s : Str} (hb : begins pn s = true)
    (hne : pn ≠ []) (hd : '.' ∉ pn) : isHidden s = false := by
  cases pn with
  | nil => exact absurd rfl hne
  | cons a pn' =>
    cases s with
    | nil => simp [begins] at hb
    | cons b s' =>
      simp only [begins, Bool.and_eq_true, beq_iff_eq] at hb
      simp only [isHidden, beq_eq_false_iff_ne, ne_eq]
      rw [← hb.1]
      simp only [List.mem_cons, not_or] at hd
      exact fun hba => hd.1 hba.symm

theorem mem_matchedCandidates {base listing pic ind c}
    (h : c ∈ matchedCandidates base listing pic ind) :
    containsSub ind (lastSeg c) = true ∧ endsW (filetypeOf pic) c = true := by
  unfold matchedCandidates at h
  have := List.of_mem_filter h
  simpa using this

theorem verifyFilter_sub {hash rf oh} : ∀ {l res : List Str},
    verifyFilter hash rf oh l = Except.ok res → res ⊆ l := by
  intro l
  induction l with
  | nil =>
    intro res h
    simp only [verifyFilter] at h
    cases h
    simp
  | cons d ds ih =>
    intro res h
    simp only [verifyFilter, bind, Except.bind] at h
    cases h1 : hash_file hash rf d with
    | error e => rw [h1] at h; cases h
    | ok dh =>
      rw [h1] at h
      cases h2 : verifyFilter hash rf oh ds with
      | error e => rw [h2] at h; cases h
      | ok rest =>
        rw [h2] at h
        simp only [pure, Except.pure, Except.ok.injEq] at h
        subst h
        by_cases hd : dh = oh
        · simp only [if_pos hd]
          intro x hx
          rcases List.mem_cons.mp hx with rfl | hx
          · exact List.mem_cons_self _ _
          · exact List.mem_cons_of_mem _ (ih h2 hx)
        · simp only [if_neg hd]
          exact fun x hx => List.mem_cons_of_mem _ (ih h2 hx)

theorem verifyFilter_mem_iff {hash rf oh} : ∀ {l res : List Str},
    verifyFilter hash rf oh l = Except.ok res → ∀ c ∈ l,
      (c ∈ res ↔ hash_file hash rf c = Except.ok oh) := by
  intro l
  induction l with
  | nil => intro res h c hc; simp at hc
  | cons d ds ih =>
    intro res h c hc
    simp only [verifyFilter, bind, Except.bind] at h
    cases h1 : hash_file hash rf d with
    | error e => rw [h1] at h; cases h
    | ok dh =>
      rw [h1] at h
      cases h2 : verifyFilter hash rf oh ds with
      | error e => rw [h2] at h; cases h
      | ok rest =>
        rw [h2] at h
        simp only [pure, Except.pure, Except.ok.injEq] at h
        subst h
        rcases List.mem_cons.mp hc with rfl | hc
        · by_cases hd : dh = oh
          · simp only [if_pos hd]
            subst hd
            simp [h1]
          · simp only [if_neg hd]
            constructor
            · intro hmem
              exact (ih h2 c (verifyFilter_sub h2 hmem)).mp hmem
            · intro heq
              rw [h1] at heq
              cases heq
              exact absurd rfl hd
        · by_cases hd : dh = oh
          · simp only [if_pos hd]
            rw [List.mem_cons]
            constructor
            · intro hx
              rcases hx with rfl | hx
              · subst hd; exact h1
              · exact (ih h2 c hc).mp hx
            · intro heq
              exact Or.inr ((ih h2 c hc).mpr heq)
          · simp only [if_neg hd]
            exact ih h2 c hc

theorem hash_file_error_of_none {hash rf c} (h : rf c = none) :
    hash_file hash rf c = Except.error c := by
  simp [hash_file, h]

theorem verifyFilter_readable {hash rf oh} : ∀ {l res : List Str},
    verifyFilter hash rf oh l = Except.ok res → ∀ c ∈ l, rf c ≠ none := by
  intro l
  induction l with
  | nil => intro res h c hc; simp at hc
  | cons d ds ih =>
    intro res h c hc
    simp only [verifyFilter, bind, Except.bind] at h
    cases h1 : hash_file hash rf d with
    | error e => rw [h1] at h; cases h
    | ok dh =>
      rw [h1] at h
      cases h2 : verifyFilter hash rf oh ds with
      | error e => rw [h2] at h; cases h
      | ok rest =>
        rcases List.mem_cons.mp hc with rfl | hc
        · intro hn
          rw [hash_file_error_of_none hn] at h1
          cases h1
        · exact ih h2 c hc

theorem dupeSetFor_sub {hash rf base listing pic ind v ds}
    (h : dupeSetFor hash rf base listing pic ind v = Except.ok ds) :
    ds ⊆ matchedCandidates base listing pic ind := by
  unfold dupeSetFor at h
  cases v with
  | false =>
    simp only [Bool.false_eq_true, if_false, Except.ok.injEq] at h
    subst h
    exact fun x hx => hx
  | true =>
    simp only [if_true, bind, Except.bind] at h
    cases h1 : hash_file hash rf pic with
    | error e => rw [h1] at h; cases h
    | ok oh => rw [h1] at h; exact verifyFilter_sub h

theorem dupeSetFor_readable {hash rf base listing pic ind ds}
    (h : dupeSetFor hash rf base listing pic ind true = Except.ok ds) :
    rf pic ≠ none ∧
      ∀ c ∈ matchedCandidates base listing pic ind, rf c ≠ none := by
  unfold dupeSetFor at h
  simp only [if_true, bind, Except.bind] at h
  cases h1 : hash_file hash rf pic with
  | error e => rw [h1] at h; cases h
  | ok oh =>
    rw [h1] at h
    refine ⟨?_, verifyFilter_readable h⟩
    intro hn
    rw [hash_file_error_of_none hn] at h1
    cases h1

theorem get_dupes_sets {hash rf base listing ind v} : ∀ {origs : List Str}
    {dss : List (List Str)},
    get_dupes hash rf base listing origs ind v = Except.ok dss →
    ∀ ds ∈ dss, ∃ pic ∈ origs,
      dupeSetFor hash rf base listing pic ind v = Except.ok ds := by
  intro origs
  induction origs with
  | nil =>
    intro dss h ds hds
    simp only [get_dupes, Except.ok.injEq] at h
    subst h
    simp at hds
  | cons pic rest ih =>
    intro dss h ds hds
    simp only [get_dupes, bind, Except.bind] at h
    cases h1 : dupeSetFor hash rf base listing pic ind v with
    | error e => rw [h1] at h; cases h
    | ok cur =>
      rw [h1] at h
      cases h2 : get_dupes hash rf base listing rest ind v with
      | error e => rw [h2] at h; cases h
      | ok dss' =>
        rw [h2] at h
        simp only [pure, Except.pure, Except.ok.injEq] at h
        subst h
        by_cases hc : cur.length ≠ 0
        · rw [if_pos hc] at hds
          rcases List.mem_cons.mp hds with rfl | hds
          · exact ⟨pic, List.mem_cons_self _ _, h1⟩
          · rcases ih h2 ds hds with ⟨q, hq, hdq⟩
            exact ⟨q, List.mem_cons_of_mem _ hq, hdq⟩
        · rw [if_neg hc] at hds
          rcases ih h2 ds hds with ⟨q, hq, hdq⟩
          exact ⟨q, List.mem_cons_of_mem _ hq, hdq⟩

theorem get_dupes_readable {hash rf base listing ind} : ∀ {origs : List Str}
    {dss : List (List Str)},
    get_dupes hash rf base listing origs ind true = Except.ok dss →
    ∀ pic ∈ origs, rf pic ≠ none ∧
      ∀ c ∈ matchedCandidates base listing pic ind, rf c ≠ none := by
  intro origs
  induction origs with
  | nil => intro dss h pic hp; simp at hp
  | cons q rest ih =>
    intro dss h pic hp
    simp only [get_dupes, bind, Except.bind] at h
    cases h1 : dupeSetFor hash rf base listing q ind true with
    | error e => rw [h1] at h; cases h
    | ok cur =>
      rw [h1] at h
      cases h2 : get_dupes hash rf base listing rest ind true with
      | error e => rw [h2] at h; cases h
      | ok dss' =>
        rcases List.mem_cons.mp hp with rfl | hp
        · exact dupeSetFor_readable h1
        · exact ih h2 pic hp

theorem removeFiles_attempted {σ : Type} {osR : σ → Str → RemoveOutcome × σ}
    {d : Bool} : ∀ {files : List Str} {s : σ} {p : Str},
    p ∈ (removeFiles osR d s files).attempted → p ∈ files := by
  intro files
  induction files with
  | nil => intro s p h; simp [removeFiles] at h
  | cons q ps ih =>
    intro s p h
    simp only [removeFiles] at h
    cases d with
    | false =>
      simp only [Bool.false_eq_true, if_false] at h
      exact List.mem_cons_of_mem _ (ih h)
    | true =>
      simp only [if_true] at h
      rcases hq : osR s q with ⟨o, s'⟩
      rw [hq] at h
      cases o with
      | ok =>
        rcases List.mem_cons.mp h with rfl | h
        · exact List.mem_cons_self _ _
        · exact List.mem_cons_of_mem _ (ih h)
      | notFound =>
        rcases List.mem_cons.mp h with rfl | h
        · exact List.mem_cons_self _ _
        · exact List.mem_cons_of_mem _ (ih h)
      | otherError e =>
        rcases List.mem_cons.mp h with rfl | h
        · exact List.mem_cons_self _ _
        · simp at h

theorem remove_dupes_attempted {σ : Type} {osR : σ → Str → RemoveOutcome × σ}
    {d : Bool} : ∀ {dss : List (List Str)} {s : σ} {p : Str},
    p ∈ (remove_dupes osR d s dss).attempted → ∃ ds ∈ dss, p ∈ ds := by
  intro dss
  induction dss with
  | nil => intro s p h; simp [remove_dupes] at h
  | cons cur rest ih =>
    intro s p h
    simp only [remove_dupes] at h
    cases hf : (removeFiles osR d s cur).fatal with
    | some e =>
      rw [hf] at h
      exact ⟨cur, List.mem_cons_self _ _, removeFiles_attempted h⟩
    | none =>
      rw [hf] at h
      rcases List.mem_append.mp h with h | h
      · exact ⟨cur, List.mem_cons_self _ _, removeFiles_attempted h⟩
      · rcases ih h with ⟨ds, hds, hp⟩
        exact ⟨ds, List.mem_cons_of_mem _ hds, hp⟩

/-- C4: the Classifier places a path among the Originals exactly when
the marker does not occur in its final path segment, and the test reads
only the final segment: the same file name joined onto different
directories (which may themselves contain the marker) classifies
identically. -/
theorem claim_C4_classifier_final_segment_only (all_images : List Str)
    (indicator p : Str) :
    (p ∈ get_originals all_images indicator ↔
      p ∈ all_images ∧ containsSub indicator (lastSeg p) = false) ∧
    (∀ d1 d2 name : Str, '/' ∉ name →
      (pathJoin d1 name ∈ get_originals [pathJoin d1 name] indicator ↔
       pathJoin d2 name ∈ get_originals [pathJoin d2 name] indicator)) := by
  constructor
  · simp [get_originals, List.mem_filter]
  · intro d1 d2 name hn
    simp [get_originals, List.mem_filter, lastSeg_pathJoin _ hn]

/-- C4 witness: the rule evaluated on `d/c.g` and on `n.g` joined onto
two different directories. -/
theorem claim_C4_classifier_final_segment_only_witness :
    (exPicW ∈ get_originals [exPicW] defaultIndicator ↔
      exPicW ∈ [exPicW] ∧ containsSub defaultIndicator (lastSeg exPicW) = false) ∧
    (pathJoin ['a'] ['n', '.', 'g'] ∈
        get_originals [pathJoin ['a'] ['n', '.', 'g']] defaultIndicator ↔
      pathJoin ['b'] ['n', '.', 'g'] ∈
        get_originals [pathJoin ['b'] ['n', '.', 'g']] defaultIndicator) :=
  ⟨(claim_C4_classifier_final_segment_only [exPicW] defaultIndicator exPicW).1,
   (claim_C4_classifier_final_segment_only [] defaultIndicator []).2
     ['a'] ['b'] ['n', '.', 'g'] (by decide)⟩

/-- C8: the Resolver's output contains only non-empty duplicate sets:
an original with no (surviving) candidates contributes no entry. -/
theorem claim_C8_no_empty_sets (hash : List Nat → Nat)
    (rf : Str → Option (List Nat)) (base : Str) (listing : List DirEntry)
    (ind : Str) (v : Bool) : ∀ (origs : List Str) (dss : List (List Str)),
    get_dupes hash rf base listing origs ind v = Except.ok dss →
    ∀ ds ∈ dss, ds ≠ [] := by
  intro origs
  induction origs with
  | nil =>
    intro dss h ds hds
    simp only [get_dupes, Except.ok.injEq] at h
    subst h
    simp at hds
  | cons pic rest ih =>
    intro dss h ds hds
    simp only [get_dupes, bind, Except.bind] at h
    cases h1 : dupeSetFor hash rf base listing pic ind v with
    | error e => rw [h1] at h; cases h
    | ok cur =>
      rw [h1] at h
      cases h2 : get_dupes hash rf base listing rest ind v with
      | error e => rw [h2] at h; cases h
      | ok dss' =>
        rw [h2] at h
        simp only [pure, Except.pure, Except.ok.injEq] at h
        subst h
        by_cases hc : cur.length ≠ 0
        · rw [if_pos hc] at hds
          rcases List.mem_cons.mp hds with rfl | hds
          · intro hnil
            rw [hnil] at hc
            exact hc rfl
          · exact ih dss' h2 ds hds
        · rw [if_neg hc] at hds
          exact ih dss' h2 ds hds

/-- C8 witness: resolving `d/c.g` against a directory holding `c 1.g`
and `x.g` yields the single set `[d/c 1.g]`, which is non-empty. -/
theorem claim_C8_no_empty_sets_witness : [exCandW] ≠ [] :=
  claim_C8_no_empty_sets hashZero exReadW exBase exListingW defaultIndicator
    false [exPicW] [[exCandW]] rfl [exCandW] (by decide)

/-- C9: a path classified as an Original (same marker, same pass) never
appears in any duplicate set the Resolver produces, hence a commit-mode
Remover run never calls `os.remove` on an Original. -/
theorem claim_C9_originals_never_deleted {σ : Type} (hash : List Nat → Nat)
    (rf : Str → Option (List Nat)) (base : Str) (listing : List DirEntry)
    (imgs : List Str) (ind : Str) (v : Bool) (dss : List (List Str))
    (p : Str) (osR : σ → Str → RemoveOutcome × σ) (s : σ) :
    get_dupes hash rf base listing (get_originals imgs ind) ind v =
      Except.ok dss →
    p ∈ get_originals imgs ind →
    (∀ ds ∈ dss, p ∉ ds) ∧
      p ∉ (remove_dupes osR true s dss).attempted := by
  intro hdss hp
  have hporig : containsSub ind (lastSeg p) = false := by
    unfold get_originals at hp
    have := List.of_mem_filter hp
    simpa using this
  have hmain : ∀ ds ∈ dss, p ∉ ds := by
    intro ds hds hpds
    rcases get_dupes_sets hdss ds hds with ⟨pic, _, hset⟩
    have hm := dupeSetFor_sub hset hpds
    have hmark := (mem_matchedCandidates hm).1
    rw [hporig] at hmark
    simp at hmark
  refine ⟨hmain, ?_⟩
  intro hat
  rcases remove_dupes_attempted hat with ⟨ds, hds, hpds⟩
  exact hmain ds hds hpds

/-- C9 witness: in the `d/c.g` directory pass, the Original `d/c.g` is
in no duplicate set and is never passed to `os.remove`. -/
theorem claim_C9_originals_never_deleted_witness :
    (∀ ds ∈ [[exCandW]], exPicW ∉ ds) ∧
      exPicW ∉ (remove_dupes exOsRemoveOk true 0 [[exCandW]]).attempted :=
  claim_C9_originals_never_deleted hashZero exReadW exBase exListingW
    [exPicW, exCandW] defaultIndicator false [[exCandW]] exPicW exOsRemoveOk 0
    rfl (by decide)

/-- C2: with verification enabled, a filename-matched candidate is in
the original's duplicate set exactly when its content digest equals the
original's; mismatching candidates are dropped with no error. -/
theorem claim_C2_verified_membership (hash : List Nat → Nat)
    (rf : Str → Option (List Nat)) (base : Str) (listing : List DirEntry)
    (pic ind : Str) (ds : List Str) (c : Str) :
    dupeSetFor hash rf base listing pic ind true = Except.ok ds →
    c ∈ matchedCandidates base listing pic ind →
    (c ∈ ds ↔ hash_file hash rf c = hash_file hash rf pic) := by
  intro h hc
  unfold dupeSetFor at h
  simp only [if_true, bind, Except.bind] at h
  cases h1 : hash_file hash rf pic with
  | error e => rw [h1] at h; cases h
  | ok oh =>
    rw [h1] at h
    dsimp only at h
    exact verifyFilter_mem_iff h c hc

/-- C2 witness: `d/c 1.g` has different bytes but an equal digest to
`d/c.g`, and it is retained. -/
theorem claim_C2_verified_membership_witness :
    exCandW ∈ [exCandW] ↔
      hash_file hashSum exReadW exCandW = hash_file hashSum exReadW exPicW :=
  claim_C2_verified_membership hashSum exReadW exBase exListingW exPicW
    defaultIndicator [exCandW] exCandW rfl (by decide)

/-- C7: during digest computation an unreadable file (the original or
any filename-matched candidate) makes resolution fail with an error —
a successful resolution certifies every such file was readable, and an
unreadable one forces the error outcome; no candidate is silently
skipped. -/
theorem claim_C7_digest_errors_propagate (hash : List Nat → Nat)
    (rf : Str → Option (List Nat)) (base : Str) (listing : List DirEntry)
    (origs : List Str) (ind : Str) :
    (∀ dss, get_dupes hash rf base listing origs ind true = Except.ok dss →
      ∀ pic ∈ origs, rf pic ≠ none ∧
        ∀ c ∈ matchedCandidates base listing pic ind, rf c ≠ none) ∧
    (∀ pic ∈ origs,
      (rf pic = none ∨ ∃ c ∈ matchedCandidates base listing pic ind, rf c = none) →
      ∃ e, get_dupes hash rf base listing origs ind true = Except.error e) := by
  constructor
  · intro dss h
    exact get_dupes_readable h
  · intro pic hp hbad
    cases hres : get_dupes hash rf base listing origs ind true with
    | error e => exact ⟨e, rfl⟩
    | ok dss =>
      have hr := get_dupes_readable hres pic hp
      rcases hbad with hb | ⟨c, hc, hcn⟩
      · exact absurd hb hr.1
      · exact absurd hcn (hr.2 c hc)

/-- C7 witness: with `d/c 1.g` unreadable, resolving `d/c.g` with
verification errors out. -/
theorem claim_C7_digest_errors_propagate_witness :
    ∃ e, get_dupes hashSum exReadBad exBase exListingW [exPicW]
      defaultIndicator true = Except.error e :=
  (claim_C7_digest_errors_propagate hashSum exReadBad exBase exListingW
      [exPicW] defaultIndicator).2 exPicW (by decide)
    (Or.inr ⟨exCandW, by decide, by decide⟩)

/-- C3: in commit mode, a `FileNotFoundError` during deletion is
reported with a warning and processing continues with the remaining
files; any other deletion error aborts the run at that point (remaining
files and remaining sets are not processed), and a set that finished
without a fatal error is followed by the remaining sets. -/
theorem claim_C3_deletion_error_policy {σ : Type}
    (osR : σ → Str → RemoveOutcome × σ) (s : σ) (p : Str) (ps : List Str)
    (sets : List (List Str)) :
    (∀ s', osR s p = (RemoveOutcome.notFound, s') →
      removeFiles osR true s (p :: ps) =
        ⟨ReportLine.fileLine p :: ReportLine.missingWarn p ::
            (removeFiles osR true s' ps).report,
         p :: (removeFiles osR true s' ps).attempted,
         (removeFiles osR true s' ps).fatal,
         (removeFiles osR true s' ps).state⟩) ∧
    (∀ e s', osR s p = (RemoveOutcome.otherError e, s') →
      removeFiles osR true s (p :: ps) =
        ⟨[ReportLine.fileLine p], [p], some e, s'⟩) ∧
    (∀ ds e, (removeFiles osR true s ds).fatal = some e →
      remove_dupes osR true s (ds :: sets) =
        ⟨ReportLine.removingHeader :: (removeFiles osR true s ds).report,
         (removeFiles osR true s ds).attempted, some e,
         (removeFiles osR true s ds).state⟩) ∧
    (∀ ds, (removeFiles osR true s ds).fatal = none →
      remove_dupes osR true s (ds :: sets) =
        ⟨ReportLine.removingHeader :: (removeFiles osR true s ds).report ++
            (remove_dupes osR true (removeFiles osR true s ds).state sets).report,
         (removeFiles osR true s ds).attempted ++
            (remove_dupes osR true (removeFiles osR true s ds).state sets).attempted,
         (remove_dupes osR true (removeFiles osR true s ds).state sets).fatal,
         (remove_dupes osR true (removeFiles osR true s ds).state sets).state⟩) := by
  refine ⟨?_, ?_, ?_, ?_⟩
  · intro s' h
    simp only [removeFiles, if_true, h]
  · intro e s' h
    simp only [removeFiles, if_true, h]
  · intro ds e h
    simp only [remove_dupes, h]
  · intro ds h
    simp only [remove_dupes, h]

/-- C3 witness: `exOsRemove` reports not-found in state `0` and a
non-missing error in state `1`; the four behaviours evaluated. -/
theorem claim_C3_deletion_error_policy_witness :
    removeFiles exOsRemove true 0 [exPath] =
      ⟨[ReportLine.fileLine exPath, ReportLine.missingWarn exPath], [exPath],
       none, 1⟩ ∧
    removeFiles exOsRemove true 1 [exPath] =
      ⟨[ReportLine.fileLine exPath], [exPath], some exPath, 1⟩ ∧
    remove_dupes exOsRemove true 1 [[exPath], [exPath]] =
      ⟨[ReportLine.removingHeader, ReportLine.fileLine exPath], [exPath],
       some exPath, 1⟩ ∧
    remove_dupes exOsRemove true 0 [[exPath]] =
      ⟨[ReportLine.removingHeader, ReportLine.fileLine exPath,
        ReportLine.missingWarn exPath], [exPath], none, 1⟩ :=
  ⟨((claim_C3_deletion_error_policy exOsRemove 0 exPath [] []).1 1 rfl).trans rfl,
   ((claim_C3_deletion_error_policy exOsRemove 1 exPath [] []).2.1 exPath 1
     rfl).trans rfl,
   ((claim_C3_deletion_error_policy exOsRemove 1 exPath [] [[exPath]]).2.2.1
     [exPath] exPath rfl).trans rfl,
   ((claim_C3_deletion_error_policy exOsRemove 0 exPath [] []).2.2.2
     [exPath] rfl).trans rfl⟩

/-- C10: with originals `photo` and `photo2` (one base name a prefix of
the other) and the marker file `photo2 (1).jpg` matching both, the same
candidate lands in both duplicate sets of one pass; in commit mode it
is reported once per set, the first deletion succeeds and the second
attempt takes the tolerated missing-file path (warning, no fatal
error). -/
theorem claim_C10_shared_candidate_two_sets :
    get_dupes hashZero (readInDir exBase exPhotoEntries) exBase
        (listingOf exPhotoEntries)
        (get_originals
          (get_all_files exBase (listingOf exPhotoEntries) defaultFiletypes)
          defaultIndicator)
        defaultIndicator false = Except.ok [[exP3], [exP3]] ∧
    remove_dupes (osRemoveDir exBase) true exPhotoEntries [[exP3], [exP3]] =
      ⟨[ReportLine.removingHeader, ReportLine.fileLine exP3,
        ReportLine.removingHeader, ReportLine.fileLine exP3,
        ReportLine.missingWarn exP3],
       [exP3, exP3], none,
       [FSEntry.file ['p', 'h', 'o', 't', 'o', '.', 'j', 'p', 'g'] [1],
        FSEntry.file ['p', 'h', 'o', 't', 'o', '2', '.', 'j', 'p', 'g'] [2]]⟩ :=
  ⟨rfl, rfl⟩

/-- C1 counterexample: for the Original `d/a[b].jpg` (base name
`a[b]`), the file `a[b] (1).jpg` satisfies the claim's literal rule
(`specCandidates` lists it), yet glob interprets `[b]` as a character
class, so the Resolver matches nothing and produces no duplicate set. -/
theorem claim_C1_counterexample_glob_metachars :
    specCandidates exBase exBracketListing exBracketPic defaultIndicator =
      [pathJoin exBase exBracketDupName] ∧
    matchedCandidates exBase exBracketListing exBracketPic defaultIndicator =
      [] ∧
    get_dupes hashZero (fun _ => some [1]) exBase exBracketListing
      [exBracketPic] defaultIndicator false = Except.ok [] :=
  ⟨rfl, rfl, rfl⟩

/-- C1 amended: when the Original's base name is non-empty and free of
glob metacharacters (`*`, `?`, `[`), its extension string contains no
separator, and the listing names are separator-free (as `os.listdir`
guarantees), the Resolver's candidate set is exactly the entries whose
name begins with the base name, contains the marker, and ends with the
extension string. -/
theorem claim_C1_amended_literal_when_no_metachars (base : Str)
    (listing : List DirEntry) (pic ind : Str)
    (h1 : picNameOf pic ≠ [])
    (h2 : ∀ c ∈ picNameOf pic, c ≠ '*' ∧ c ≠ '?' ∧ c ≠ '[')
    (h3 : '/' ∉ filetypeOf pic)
    (h4 : ∀ e ∈ listing, '/' ∉ e.name) :
    matchedCandidates base listing pic ind =
      specCandidates base listing pic ind := by
  unfold matchedCandidates specCandidates glob_glob
  rw [filter_map_filter]
  refine congrArg (List.map _) (List.filter_congr ?_)
  intro e he
  rw [fnmatchL_lits_star h2 e.name, lastSeg_pathJoin base (h4 e he),
    endsW_pathJoin base h3]
  cases hb : begins (picNameOf pic) e.name with
  | false => simp [hb]
  | true =>
    have hh : isHidden e.name = false :=
      isHidden_false_of_begins hb h1 (headD_splitOnC_not_mem '.' (lastSeg pic))
    simp [hb, hh]

/-- C1 amended witness: for `d/c.g` (metacharacter-free base name `c`)
both sides agree on the `c 1.g` / `x.g` directory. -/
theorem claim_C1_amended_literal_when_no_metachars_witness :
    matchedCandidates exBase exListingW exPicW defaultIndicator =
      specCandidates exBase exListingW exPicW defaultIndicator :=
  claim_C1_amended_literal_when_no_metachars exBase exListingW exPicW
    defaultIndicator (by decide) (by decide) (by decide) (by decide)

theorem mem_foldl_append {α β : Type} (g : α → List β) :
    ∀ (fts : List α) (acc : List β) (p : β),
    (p ∈ fts.foldl (fun acc ft => acc ++ g ft) acc ↔
      p ∈ acc ∨ ∃ ft ∈ fts, p ∈ g ft) := by
  intro fts
  induction fts with
  | nil => intro acc p; simp
  | cons f fts' ih =>
    intro acc p
    simp only [List.foldl_cons]
    rw [ih]
    simp only [List.mem_append, List.exists_mem_cons_iff, or_assoc]

theorem mem_glob_glob {base : Str} {listing : List DirEntry} {pat p : Str} :
    p ∈ glob_glob base listing pat ↔
      ∃ e ∈ listing,
        ((isHidden pat || !isHidden e.name) && fnmatchL pat e.name) = true ∧
        p = pathJoin base e.name := by
  simp only [glob_glob, List.mem_map, List.mem_filter]
  constructor
  · rintro ⟨e, ⟨he, hpred⟩, rfl⟩
    exact ⟨e, he, hpred, rfl⟩
  · rintro ⟨e, he, hpred, rfl⟩
    exact ⟨e, ⟨he, hpred⟩, rfl⟩

theorem defaultFiletypes_safe :
    ∀ ft ∈ defaultFiletypes, ∀ c ∈ ('.' :: ft), c ≠ '*' ∧ c ≠ '?' ∧ c ≠ '[' := by
  decide

/-- C6 counterexample: `glob` matches directories as well: a listing
whose only entry is a subdirectory named `sub.jpg` still makes File
Discovery return that entry, where the claim requires it excluded. -/
theorem claim_C6_counterexample_subdir_included :
    (⟨exSubdirName, true⟩ : DirEntry) ∈ exSubdirListing ∧
    get_all_files exBase exSubdirListing defaultFiletypes =
      [pathJoin exBase exSubdirName] :=
  ⟨by decide, rfl⟩

/-- C6 amended: File Discovery returns exactly the immediate entries —
plain files or subdirectories alike — whose name does not start with a
dot and ends with `.ext` for a recognized extension `ext`
(case-sensitively), joined onto the directory path. -/
theorem claim_C6_amended_discovery (base : Str) (listing : List DirEntry)
    (p : Str) :
    p ∈ get_all_files base listing defaultFiletypes ↔
      ∃ e ∈ listing, isHidden e.name = false ∧
        (∃ ft ∈ defaultFiletypes, endsW ('.' :: ft) e.name = true) ∧
        p = pathJoin base e.name := by
  unfold get_all_files
  rw [mem_foldl_append]
  simp only [List.not_mem_nil, false_or]
  constructor
  · rintro ⟨ft, hft, hp⟩
    rcases mem_glob_glob.mp hp with ⟨e, he, hpred, rfl⟩
    rw [fnmatchL_star_lits (defaultFiletypes_safe ft hft) e.name] at hpred
    simp only [isHidden, Bool.false_or, Bool.and_eq_true, Bool.not_eq_true',
      show (('*' : Char) == '.') = false from rfl] at hpred
    exact ⟨e, he, hpred.1, ⟨ft, hft, hpred.2⟩, rfl⟩
  · rintro ⟨e, he, hhid, ⟨ft, hft, hend⟩, rfl⟩
    refine ⟨ft, hft, mem_glob_glob.mpr ⟨e, he, ?_, rfl⟩⟩
    rw [fnmatchL_star_lits (defaultFiletypes_safe ft hft) e.name, hhid, hend]
    rfl

theorem removeFiles_dry {σ : Type} (osR : σ → Str → RemoveOutcome × σ)
    (s : σ) : ∀ files : List Str,
    removeFiles osR false s files =
      ⟨files.map ReportLine.fileLine, [], none, s⟩ := by
  intro files
  induction files with
  | nil => rfl
  | cons p ps ih =>
    simp only [removeFiles, Bool.false_eq_true, if_false, ih, List.map_cons]

theorem remove_dupes_dry {σ : Type} (osR : σ → Str → RemoveOutcome × σ)
    (s : σ) : ∀ dss : List (List Str),
    (remove_dupes osR false s dss).attempted = [] ∧
    (remove_dupes osR false s dss).fatal = none ∧
    (remove_dupes osR false s dss).state = s := by
  intro dss
  induction dss with
  | nil => exact ⟨rfl, rfl, rfl⟩
  | cons ds rest ih =>
    simp only [remove_dupes, removeFiles_dry]
    simpa using ih

theorem replaceDirs_nil : ∀ es : List FSEntry, replaceDirs es [] = es := by
  intro es
  induction es with
  | nil => rfl
  | cons e rest ih =>
    cases e with
    | file n c => simp only [replaceDirs, ih]
    | dir n t => simp only [replaceDirs, ih]

mutual
theorem mainRun_dry (hash : List Nat → Nat) (rcv vfy : Bool) (b : Str) :
    ∀ t : FSTree, (mainRun hash rcv vfy false b t).attempted = [] ∧
      (mainRun hash rcv vfy false b t).tree = t
  | FSTree.node entries => by
    have hdirs := mainRunDirs_dry hash rcv vfy b entries
    simp only [mainRun]
    cases hg : get_dupes hash (readInDir b entries) b (listingOf entries)
        (get_originals (get_all_files b (listingOf entries) defaultFiletypes)
          defaultIndicator) defaultIndicator vfy with
    | error e => exact ⟨by trivial, by trivial⟩
    | ok dupes =>
      have hr := remove_dupes_dry (osRemoveDir b) entries dupes
      simp only [hr.1, hr.2.1, hr.2.2]
      cases rcv with
      | false => exact ⟨by trivial, by trivial⟩
      | true => simp only [hdirs.1, hdirs.2, hr.2.2]; exact ⟨by trivial, by trivial⟩

theorem mainRunDirs_dry (hash : List Nat → Nat) (rcv vfy : Bool) (b : Str) :
    ∀ es : List FSEntry,
      (mainRunDirs hash rcv vfy false b es).attempted = [] ∧
      replaceDirs es (mainRunDirs hash rcv vfy false b es).trees = es
  | [] => ⟨rfl, rfl⟩
  | FSEntry.file n c :: rest => by
    have ih := mainRunDirs_dry hash rcv vfy b rest
    simp only [mainRunDirs, replaceDirs, ih.1, ih.2]
    exact ⟨by trivial, by trivial⟩
  | FSEntry.dir n t :: rest => by
    have hm := mainRun_dry hash rcv vfy (pathJoin b n) t
    have ih := mainRunDirs_dry hash rcv vfy b rest
    simp only [mainRunDirs]
    cases hf : (mainRun hash rcv vfy false (pathJoin b n) t).fatal with
    | some e =>
      simp only [replaceDirs, hm.1, hm.2, replaceDirs_nil]
      exact ⟨by trivial, by trivial⟩
    | none =>
      simp only [replaceDirs, hm.1, hm.2, ih.1, ih.2]
      exact ⟨by trivial, by trivial⟩
end

/-- C5: a dry run (commit flag false) never calls `os.remove` and
leaves the filesystem tree unchanged, and a second dry run over the
resulting (unchanged) tree prints the identical report. -/
theorem claim_C5_dry_run_no_mutation (hash : List Nat → Nat)
    (recursive verify : Bool) (base : Str) (t : FSTree) :
    (mainRun hash recursive verify false base t).attempted = [] ∧
    (mainRun hash recursive verify false base t).tree = t ∧
    (mainRun hash recursive verify false base
        ((mainRun hash recursive verify false base t).tree)).report =
      (mainRun hash recursive verify false base t).report := by
  obtain ⟨h1, h2⟩ := mainRun_dry hash recursive verify base t
  exact ⟨h1, h2, by rw [h2]⟩
